import Mathlib

/-!
Verification of the i18n-automation repository (updateTranslations.js and
mergeTranslations.js) against its natural-language specification.

JavaScript objects holding translations are modelled as association lists
over strings (`Store`): `obj[k]` is `objGet`, `obj[k] = v` is `objInsert`
(update-in-place of the first occurrence, append when absent), and
`Object.keys` is `List.map Prod.fst`.  A resource on disk is modelled as
`Option (Option α)`: `none` is an absent file, `some none` a file that
exists but fails JSON decoding, `some (some m)` a file that decodes to `m`.
The file-system state seen by the two scripts is `FsState` (one decoded
resource per locale, plus the pending `toTranslate.json` batch).
-/

abbrev Store := List (String × String)

abbrev Batch := List (String × Store)

/-- `obj[k]` on a JS object. -/
def objGet : Store → String → Option String
  | [], _ => none
  | (k', v) :: rest, k => if k' = k then some v else objGet rest k

/-- `obj[k] = v` on a JS object: overwrite the existing entry in place,
append a fresh entry otherwise. -/
def objInsert : Store → String → String → Store
  | [], k, v => [(k, v)]
  | (k', v') :: rest, k, v =>
    if k' = k then (k', v) :: rest else (k', v') :: objInsert rest k v

/-- JS `a || b` for a possibly-undefined string (`none` = `undefined`). -/
def jsOrOpt : Option String → String → String
  | none, d => d
  | some v, d => if v = "" then d else v

/-- JS whitespace on the ASCII range (space, tab, newline, carriage return,
vertical tab, form feed), as matched by regex `\s` and stripped by
`String.prototype.trim`. -/
def isJsWs (c : Char) : Bool :=
  c = ' ' || c = '\t' || c = '\n' || c = '\r' || c = Char.ofNat 11 || c = Char.ofNat 12

/-- `!value || value.trim() === ""` for a defined string value: the trimmed
string is empty exactly when every character is whitespace. -/
def isBlank (v : String) : Bool := v == "" || v.data.all isJsWs

/-- `!existingValue || existingValue.trim() === ""` where the value may be
`undefined`. -/
def blankOpt : Option String → Bool
  | none => true
  | some v => isBlank v

/-- Pointwise update of a resource map (one file rewritten on disk). -/
def fupdate (f : String → Option (Option Store)) (k : String)
    (v : Option (Option Store)) : String → Option (Option Store) :=
  fun x => if x = k then v else f x

/-- Lexicographic comparison of keys, as JS `Array.prototype.sort` compares
strings (code-unit order). -/
def charListLe : List Char → List Char → Bool
  | [], _ => true
  | _ :: _, [] => false
  | a :: as, b :: bs => if a < b then true else if b < a then false else charListLe as bs

def strLe (a b : String) : Bool := charListLe a.data b.data

def insertSorted (a : String) : List String → List String
  | [] => [a]
  | b :: rest => if strLe a b then a :: b :: rest else b :: insertSorted a rest

/-- `Object.keys(translations).sort()`. -/
def sortKeys : List String → List String
  | [] => []
  | a :: rest => insertSorted a (sortKeys rest)

/-- `saveTranslationFile` (identical in both scripts): the object that is
serialized to disk, rebuilt with its keys in sorted order. -/
def saveTranslationFile (translations : Store) : Store :=
  (sortKeys (translations.map Prod.fst)).map
    (fun k => (k, (objGet translations k).getD ""))

/-- Decoded state of `app/translations/`: one resource per locale name plus
the pending `toTranslate.json` batch resource. -/
structure FsState where
  res : String → Option (Option Store)
  batch : Option (Option Batch)

/-! ### Association-list lemmas -/

theorem objGet_insert (m : Store) (k v k' : String) :
    objGet (objInsert m k v) k' = if k' = k then some v else objGet m k' := by
  induction m with
  | nil =>
    by_cases h : k' = k
    · simp [objInsert, objGet, h]
    · simp [objInsert, objGet, h, Ne.symm h]
  | cons p rest ih =>
    obtain ⟨a, b⟩ := p
    by_cases hak : a = k
    · subst hak
      by_cases h : k' = a
      · simp [objInsert, objGet, h]
      · simp [objInsert, objGet, h, Ne.symm h]
    · by_cases h : a = k'
      · subst h
        simp [objInsert, objGet, hak, Ne.symm hak]
      · simp [objInsert, objGet, hak, h, ih]

theorem mem_keys_insert (m : Store) (k v a : String) :
    a ∈ (objInsert m k v).map Prod.fst ↔ a = k ∨ a ∈ m.map Prod.fst := by
  induction m with
  | nil => simp [objInsert]
  | cons p rest ih =>
    obtain ⟨k', v'⟩ := p
    by_cases h : k' = k
    · subst h
      have e : objInsert ((k', v') :: rest) k' v = (k', v) :: rest := by
        simp [objInsert]
      rw [e]
      simp only [List.map_cons, List.mem_cons]
      tauto
    · simp only [objInsert, if_neg h, List.map_cons, List.mem_cons, ih]
      tauto

theorem length_insert (m : Store) (k v : String) :
    m.length ≤ (objInsert m k v).length := by
  induction m with
  | nil => simp [objInsert]
  | cons p rest ih =>
    obtain ⟨k', v'⟩ := p
    by_cases h : k' = k
    · simp [objInsert, h]
    · simp only [objInsert, if_neg h, List.length_cons]
      exact Nat.succ_le_succ ih

theorem mem_keys_iff_get (m : Store) (k : String) :
    k ∈ m.map Prod.fst ↔ ∃ v, objGet m k = some v := by
  induction m with
  | nil => simp [objGet]
  | cons p rest ih =>
    obtain ⟨k', v'⟩ := p
    by_cases h : k' = k
    · subst h; simp [objGet]
    · simp [objGet, h, Ne.symm h, ih]

theorem objGet_map_keys (ks : List String) (f : String → String) (k : String) :
    objGet (ks.map fun x => (x, f x)) k = if k ∈ ks then some (f k) else none := by
  induction ks with
  | nil => simp [objGet]
  | cons a rest ih =>
    by_cases h : a = k
    · subst h; simp [objGet]
    · simp [objGet, h, Ne.symm h, ih]

theorem mem_insertSorted (a x : String) (l : List String) :
    x ∈ insertSorted a l ↔ x = a ∨ x ∈ l := by
  induction l with
  | nil => simp [insertSorted]
  | cons b rest ih =>
    simp only [insertSorted]
    by_cases h : strLe a b
    · simp [h]
    · simp only [if_neg h, List.mem_cons, ih]; tauto

theorem length_insertSorted (a : String) (l : List String) :
    (insertSorted a l).length = l.length + 1 := by
  induction l with
  | nil => simp [insertSorted]
  | cons b rest ih =>
    simp only [insertSorted]
    by_cases h : strLe a b
    · simp [h]
    · simp [h, ih]

theorem mem_sortKeys (x : String) (l : List String) :
    x ∈ sortKeys l ↔ x ∈ l := by
  induction l with
  | nil => simp [sortKeys]
  | cons a rest ih =>
    simp [sortKeys, mem_insertSorted, ih]

theorem length_sortKeys (l : List String) :
    (sortKeys l).length = l.length := by
  induction l with
  | nil => simp [sortKeys]
  | cons a rest ih =>
    simp [sortKeys, length_insertSorted, ih]

theorem keys_map_pair (f : String → String) (l : List String) :
    (l.map fun k => (k, f k)).map Prod.fst = l := by
  induction l with
  | nil => rfl
  | cons a rest ih => simp [ih]

theorem keys_save (m : Store) :
    (saveTranslationFile m).map Prod.fst = sortKeys (m.map Prod.fst) := by
  unfold saveTranslationFile
  exact keys_map_pair _ _

theorem mem_keys_save (m : Store) (a : String) :
    a ∈ (saveTranslationFile m).map Prod.fst ↔ a ∈ m.map Prod.fst := by
  rw [keys_save, mem_sortKeys]

theorem objGet_save (m : Store) (k : String) :
    objGet (saveTranslationFile m) k =
      if k ∈ m.map Prod.fst then some ((objGet m k).getD "") else none := by
  unfold saveTranslationFile
  rw [objGet_map_keys]
  by_cases h : k ∈ m.map Prod.fst
  · rw [if_pos ((mem_sortKeys _ _).2 h), if_pos h]
  · rw [if_neg (fun hh => h ((mem_sortKeys _ _).1 hh)), if_neg h]

theorem objGet_save_of_get (m : Store) (k v : String) (h : objGet m k = some v) :
    objGet (saveTranslationFile m) k = some v := by
  have hmem : k ∈ m.map Prod.fst := (mem_keys_iff_get m k).2 ⟨v, h⟩
  rw [objGet_save, if_pos hmem, h]
  rfl

theorem length_save (m : Store) :
    (saveTranslationFile m).length = m.length := by
  simp [saveTranslationFile, length_sortKeys]

/-! ### The literal scanner of updateTranslations.js (`extractTrCallsFromFile`)

The scanner walks the source text looking for occurrences of the regex
`\btr\s*\(`, then consumes a quoted literal character by character,
honoring backslash escapes and tracking two disqualifying flags
(`hasNewline`, `hasTemplateExpression`).  Characters whose literal form
would clash with delimiters are named constants. -/

namespace UpdateTranslations

/-- The character `$` (code point 36). -/
def dollarChar : Char := Char.ofNat 36

/-- The character `\x7b` (opening brace, code point 123). -/
def openBraceChar : Char := Char.ofNat 123

/-- The character `\x7d` (closing brace, code point 125). -/
def closeBraceChar : Char := Char.ofNat 125

/-- The double-quote delimiter (code point 34). -/
def dquoteChar : Char := Char.ofNat 34

/-- The single-quote delimiter (code point 39). -/
def squoteChar : Char := Char.ofNat 39

/-- The template-literal delimiter (code point 96). -/
def backtickChar : Char := Char.ofNat 96

/-- The backslash escape character (code point 92). -/
def backslashChar : Char := Char.ofNat 92

/-- JS regex `\w` (`[A-Za-z0-9_]`), used for the `\b` word boundary. -/
def isWordChar (c : Char) : Bool := c.isAlphanum || c = '_'

/-- The `while (\s) index += 1` whitespace-skipping loops. -/
def dropWs : List Char → List Char
  | [] => []
  | c :: rest => if isJsWs c then dropWs rest else c :: rest

theorem dropWs_length (l : List Char) : (dropWs l).length ≤ l.length := by
  induction l with
  | nil => simp [dropWs]
  | cons c rest ih =>
    by_cases h : isJsWs c
    · simp only [dropWs, if_pos h]
      exact Nat.le_succ_of_le ih
    · simp [dropWs, h]

theorem dropWs_subset (l : List Char) : ∀ c ∈ dropWs l, c ∈ l := by
  induction l with
  | nil => simp [dropWs]
  | cons a rest ih =>
    by_cases h : isJsWs a
    · simp only [dropWs, if_pos h]
      intro c hc
      exact List.mem_cons_of_mem a (ih c hc)
    · simp [dropWs, h]

/-- The inner `while` loop of `extractTrCallsFromFile`: consume one quoted
literal.  Arguments mirror the mutable locals `value`, `hasNewline`,
`hasTemplateExpression`, `escaped`.  `none` models running off the end of the
text before the closing quote (the `index >= content.length` check). -/
def consume (q : Char) : List Char → List Char → Bool → Bool → Bool →
    Option (List Char × Bool × Bool)
  | [], _, _, _, _ => none
  | c :: rest, value, hasNewline, hasTemplateExpression, escaped =>
    if escaped then
      consume q rest (value ++ [c]) hasNewline hasTemplateExpression false
    else if c = backslashChar then
      consume q rest value hasNewline hasTemplateExpression true
    else
      let hTE := if q = backtickChar ∧ c = dollarChar ∧ rest.head? = some openBraceChar
        then true else hasTemplateExpression
      if c = q then some (value, hasNewline, hTE)
      else
        let hNL := if c = '\n' then true else hasNewline
        consume q rest (value ++ [c]) hNL hTE false

/-- Handling of one regex match, starting just after the matched `(`: skip
whitespace, require a quote delimiter, consume the literal, and accept the
key if it is non-empty, newline-free, interpolation-free and not yet seen. -/
def processCall (cs : List Char) (keys : List (List Char)) : List (List Char) :=
  match dropWs cs with
  | [] => keys
  | qc :: lit =>
    if qc = dquoteChar ∨ qc = squoteChar ∨ qc = backtickChar then
      match consume qc lit [] false false false with
      | none => keys
      | some (value, hasNewline, hasTemplateExpression) =>
        if value = [] ∨ hasNewline = true ∨ hasTemplateExpression = true then keys
        else if value ∈ keys then keys else keys ++ [value]
    else keys

/-- The driver loop of `extractTrCallsFromFile`: repeatedly find the next
match of `\btr\s*\(` (the boolean argument tracks whether the previous
character was a word character, for the `\b` boundary) and process it.
After a match the search resumes right after the matched `(`, exactly as
`trCallRegex.exec` resumes from `lastIndex`. -/
def extractLoop (fuel : Nat) : List Char → Bool → List (List Char) → List (List Char) :=
  match fuel with
  | 0 => fun _ _ keys => keys
  | fuel + 1 => fun cs b keys =>
    match cs with
    | [] => keys
    | c :: rest =>
      if b = false ∧ c = 't' ∧ rest.head? = some 'r' ∧
          (dropWs rest.tail).head? = some '(' then
        extractLoop fuel (dropWs rest.tail).tail false
          (processCall (dropWs rest.tail).tail keys)
      else
        extractLoop fuel rest (isWordChar c) keys

/-- The driver with enough fuel to finish: every iteration advances the scan
position by at least one character, so the text length bounds the number of
iterations. -/
def extractTrCalls (cs : List Char) (b : Bool) (keys : List (List Char)) :
    List (List Char) :=
  extractLoop cs.length cs b keys

/-- The full scanner on a source text: keys of `extractTrCallsFromFile`. -/
def extractTrCallsFromFile (content : String) : List (List Char) :=
  extractTrCalls content.data false []

/-- Whether a character list contains `$` immediately followed by an opening
brace (an unresolved template-interpolation marker). -/
def hasInterpMarker : List Char → Bool
  | [] => false
  | [_] => false
  | a :: b :: rest =>
    if a = dollarChar ∧ b = openBraceChar then true else hasInterpMarker (b :: rest)

end UpdateTranslations

/-! ### The synchronizer of updateTranslations.js (`main`)

`main` takes the list of extracted keys (the output of `extractAllTrKeys`,
which unions the per-file scans, deduplicates and sorts — here a parameter,
since it is the only way the scanned source tree enters the computation)
and the decoded state of the translations directory, and returns the state
after the run. -/

namespace UpdateTranslations

def SUPPORTED_LOCALES : List String :=
  ["en", "de", "fr", "es", "sv", "pt-br", "it", "nl", "ja", "ko",
   "zh-cn", "zh-tw", "tr", "th", "pl", "ar", "da", "fi", "id", "ms"]

def CANONICAL_LOCALE : String := "en"

/-- `loadTranslationFile` of updateTranslations.js: any failure (absent file
or JSON parse error alike) is caught, a warning is printed and an empty
object is returned. -/
def loadTranslationFile : Option (Option Store) → Store
  | some (some m) => m
  | some none => []
  | none => []

/-- The value given to `updatedTranslations[key]` in the per-key loop of
`main`, as a function of the canonical store's key list (`existingKeys`),
the locale, and the locale's own loaded store (`currentTranslations`). -/
def keyVal (existingKeys : List String) (locale : String) (current : Store)
    (k : String) : String :=
  if k ∈ existingKeys then
    if locale = CANONICAL_LOCALE then jsOrOpt (objGet current k) k
    else jsOrOpt (objGet current k) ""
  else
    if locale = CANONICAL_LOCALE then k else ""

/-- Whether the per-key loop adds `k` to `toTranslate[locale]`. -/
def keyBlank (existingKeys : List String) (locale : String) (current : Store)
    (k : String) : Bool :=
  if locale = CANONICAL_LOCALE then false
  else if k ∈ existingKeys then blankOpt (objGet current k)
  else true

/-- The `for (const key of extractedKeys)` loop of `main`, building
`updatedTranslations` and this locale's slice of `toTranslate`. -/
def buildLoop (existingKeys : List String) (locale : String) (current : Store) :
    List String → Store → Store → Store × Store
  | [], upd, lb => (upd, lb)
  | k :: ks, upd, lb =>
    if k ∈ existingKeys then
      if locale = CANONICAL_LOCALE then
        buildLoop existingKeys locale current ks
          (objInsert upd k (jsOrOpt (objGet current k) k)) lb
      else
        buildLoop existingKeys locale current ks
          (objInsert upd k (jsOrOpt (objGet current k) ""))
          (if blankOpt (objGet current k) then objInsert lb k "" else lb)
    else
      if locale = CANONICAL_LOCALE then
        buildLoop existingKeys locale current ks (objInsert upd k k) lb
      else
        buildLoop existingKeys locale current ks (objInsert upd k "")
          (objInsert lb k "")

/-- One iteration of the `for (const locale of SUPPORTED_LOCALES)` loop. -/
def buildLocale (existingKeys : List String) (extractedKeys : List String)
    (locale : String) (current : Store) : Store × Store :=
  buildLoop existingKeys locale current extractedKeys [] []

/-- The locale loop of `main`: load each locale's store, rebuild it from the
extracted keys, save it (sorted), and accumulate `toTranslate` slices in
locale order (a locale appears in `toTranslate` only when its slice is
non-empty). -/
def syncLoop (existingKeys : List String) (extractedKeys : List String) :
    List String → (String → Option (Option Store)) → Batch →
    (String → Option (Option Store)) × Batch
  | [], res, tt => (res, tt)
  | locale :: rest, res, tt =>
    let current := loadTranslationFile (res locale)
    let p := buildLocale existingKeys extractedKeys locale current
    let res' := fupdate res locale (some (some (saveTranslationFile p.1)))
    let tt' := if p.2 = [] then tt else tt ++ [(locale, p.2)]
    syncLoop existingKeys extractedKeys rest res' tt'

/-- `main` of updateTranslations.js: load the canonical store, rebuild and
save every supported locale store, and write `toTranslate.json` only when
the accumulated batch is non-empty (otherwise the batch resource on disk is
left untouched and "up to date" is reported). -/
def main (extractedKeys : List String) (s : FsState) : FsState :=
  let canonicalTranslations := loadTranslationFile (s.res CANONICAL_LOCALE)
  let existingKeys := canonicalTranslations.map Prod.fst
  let p := syncLoop existingKeys extractedKeys SUPPORTED_LOCALES s.res []
  { res := p.1, batch := if p.2 = [] then s.batch else some (some p.2) }

end UpdateTranslations

/-! ### The merge script mergeTranslations.js (`main`) -/

namespace MergeTranslations

/-- `loadTranslationFile` of mergeTranslations.js: any failure — the file
being absent as much as a parse error — is rethrown as an error. -/
def loadTranslationFile : Option (Option Store) → Except String Store
  | some (some m) => Except.ok m
  | some none => Except.error "could not parse file"
  | none => Except.error "could not read file"

/-- Outcome reported by a merge run. -/
inductive MergeReport where
  | noBatch : MergeReport
  | malformedBatch : MergeReport
  | incomplete : List (String × String) → MergeReport
  | merged : Nat → MergeReport
deriving DecidableEq

/-- The validation pass: every `locale: key` pair whose batch text is blank
(`!value || value.trim() === ""`), across all locales, in batch order. -/
def blanksOf : Batch → List (String × String)
  | [] => []
  | (locale, translations) :: rest =>
    (translations.filter (fun kv => isBlank kv.2)).map (fun kv => (locale, kv.1))
      ++ blanksOf rest

/-- The inner `for (const [key, value] of Object.entries(newTranslations))`
loop: overwrite only with non-blank batch text, counting merged entries. -/
def mergeEntries : Store → Store → Nat → Store × Nat
  | cur, [], n => (cur, n)
  | cur, (k, v) :: rest, n =>
    if isBlank v then mergeEntries cur rest n
    else mergeEntries (objInsert cur k v) rest (n + 1)

/-- The `for (const [locale, newTranslations] of Object.entries(...))` loop:
a locale whose store fails to load is reported and skipped (its resource is
left untouched); otherwise the merged store is saved sorted. -/
def mergeLoop : Batch → (String → Option (Option Store)) → Nat →
    (String → Option (Option Store)) × Nat
  | [], res, total => (res, total)
  | (locale, newTranslations) :: rest, res, total =>
    match loadTranslationFile (res locale) with
    | Except.error _ => mergeLoop rest res total
    | Except.ok cur =>
      let p := mergeEntries cur newTranslations 0
      mergeLoop rest (fupdate res locale (some (some (saveTranslationFile p.1))))
        (total + p.2)

/-- `main` of mergeTranslations.js: missing batch resource is a reported
usage error, malformed batch a fatal error, a batch with any blank entry is
rejected wholesale before touching any store; otherwise all entries are
merged and the batch resource is deleted exactly when at least one entry
was merged. -/
def main (s : FsState) : FsState × MergeReport :=
  match s.batch with
  | none => (s, MergeReport.noBatch)
  | some none => (s, MergeReport.malformedBatch)
  | some (some toTranslateData) =>
    let allEmptyTranslations := blanksOf toTranslateData
    if allEmptyTranslations = [] then
      let p := mergeLoop toTranslateData s.res 0
      if 0 < p.2 then ({ res := p.1, batch := none }, MergeReport.merged p.2)
      else ({ res := p.1, batch := s.batch }, MergeReport.merged p.2)
    else
      (s, MergeReport.incomplete allEmptyTranslations)

end MergeTranslations

/-! ### Properties of the synchronizer -/

theorem filterMap_congr_mem {α β : Type} (f g : α → Option β) :
    ∀ l : List α, (∀ a ∈ l, f a = g a) → l.filterMap f = l.filterMap g := by
  intro l
  induction l with
  | nil => intro _; rfl
  | cons a rest ih =>
    intro h
    simp only [List.filterMap_cons]
    rw [h a (List.mem_cons_self a rest), ih (fun x hx => h x (List.mem_cons_of_mem a hx))]

namespace UpdateTranslations

theorem buildLoop_step (E : List String) (locale : String) (cur : Store)
    (k : String) (ks : List String) (upd lb : Store) :
    buildLoop E locale cur (k :: ks) upd lb =
      buildLoop E locale cur ks (objInsert upd k (keyVal E locale cur k))
        (if keyBlank E locale cur k then objInsert lb k "" else lb) := by
  by_cases hE : k ∈ E
  · by_cases hc : locale = CANONICAL_LOCALE
    · simp [buildLoop, keyVal, keyBlank, hE, hc]
    · by_cases hb : blankOpt (objGet cur k)
      · simp [buildLoop, keyVal, keyBlank, hE, hc, hb]
      · simp [buildLoop, keyVal, keyBlank, hE, hc, hb]
  · by_cases hc : locale = CANONICAL_LOCALE
    · simp [buildLoop, keyVal, keyBlank, hE, hc]
    · simp [buildLoop, keyVal, keyBlank, hE, hc]

theorem buildLoop_get (E : List String) (locale : String) (cur : Store) :
    ∀ (ks : List String) (upd lb : Store) (k : String),
    objGet (buildLoop E locale cur ks upd lb).1 k =
      if k ∈ ks then some (keyVal E locale cur k) else objGet upd k := by
  intro ks
  induction ks with
  | nil => intro upd lb k; simp [buildLoop]
  | cons k' ks ih =>
    intro upd lb k
    rw [buildLoop_step, ih]
    by_cases hk : k ∈ ks
    · simp [hk]
    · by_cases he : k = k'
      · subst he
        simp [hk, objGet_insert]
      · simp [hk, he, objGet_insert]

theorem buildLoop_keys (E : List String) (locale : String) (cur : Store) :
    ∀ (ks : List String) (upd lb : Store) (a : String),
    a ∈ ((buildLoop E locale cur ks upd lb).1.map Prod.fst) ↔
      a ∈ ks ∨ a ∈ upd.map Prod.fst := by
  intro ks
  induction ks with
  | nil => intro upd lb a; simp [buildLoop]
  | cons k' ks ih =>
    intro upd lb a
    rw [buildLoop_step, ih]
    rw [mem_keys_insert]
    simp only [List.mem_cons]
    tauto

theorem buildLoop_lb_get (E : List String) (locale : String) (cur : Store) :
    ∀ (ks : List String) (upd lb : Store) (k : String),
    objGet (buildLoop E locale cur ks upd lb).2 k =
      if k ∈ ks ∧ keyBlank E locale cur k = true then some "" else objGet lb k := by
  intro ks
  induction ks with
  | nil => intro upd lb k; simp [buildLoop]
  | cons k' ks ih =>
    intro upd lb k
    rw [buildLoop_step, ih]
    by_cases hk : k ∈ ks ∧ keyBlank E locale cur k = true
    · rw [if_pos hk, if_pos ⟨List.mem_cons_of_mem k' hk.1, hk.2⟩]
    · rw [if_neg hk]
      by_cases he : k = k'
      · subst he
        by_cases hb : keyBlank E locale cur k = true
        · rw [if_pos hb, if_pos ⟨List.mem_cons_self k ks, hb⟩, objGet_insert, if_pos rfl]
        · rw [if_neg hb, if_neg (fun hc => hb hc.2)]
      · have hcons : ¬(k ∈ k' :: ks ∧ keyBlank E locale cur k = true) := by
          rintro ⟨hmem, hkb⟩
          rcases List.mem_cons.1 hmem with h1 | h1
          · exact he h1
          · exact hk ⟨h1, hkb⟩
        rw [if_neg hcons]
        by_cases hb : keyBlank E locale cur k' = true
        · rw [if_pos hb, objGet_insert, if_neg he]
        · rw [if_neg hb]

theorem buildLoop_lb_nil (E : List String) (locale : String) (cur : Store) :
    ∀ (ks : List String) (upd lb : Store),
    (∀ k ∈ ks, keyBlank E locale cur k = false) →
    (buildLoop E locale cur ks upd lb).2 = lb := by
  intro ks
  induction ks with
  | nil => intro upd lb _; simp [buildLoop]
  | cons k' ks ih =>
    intro upd lb h
    rw [buildLoop_step]
    rw [h k' (List.mem_cons_self k' ks)]
    simp only [Bool.false_eq_true, if_false]
    exact ih _ _ (fun k hk => h k (List.mem_cons_of_mem k' hk))

theorem buildLoop_fst_congr (E₁ E₂ : List String) (locale : String)
    (cur₁ cur₂ : Store) :
    ∀ (ks : List String) (upd lb₁ lb₂ : Store),
    (∀ k ∈ ks, keyVal E₁ locale cur₁ k = keyVal E₂ locale cur₂ k) →
    (buildLoop E₁ locale cur₁ ks upd lb₁).1 = (buildLoop E₂ locale cur₂ ks upd lb₂).1 := by
  intro ks
  induction ks with
  | nil => intro upd lb₁ lb₂ _; simp [buildLoop]
  | cons k' ks ih =>
    intro upd lb₁ lb₂ h
    rw [buildLoop_step, buildLoop_step]
    rw [h k' (List.mem_cons_self k' ks)]
    exact ih _ _ _ (fun k hk => h k (List.mem_cons_of_mem k' hk))

theorem syncLoop_step (E ks : List String) (locale : String) (rest : List String)
    (res : String → Option (Option Store)) (tt : Batch) :
    syncLoop E ks (locale :: rest) res tt =
      syncLoop E ks rest
        (fupdate res locale (some (some (saveTranslationFile
          (buildLocale E ks locale (loadTranslationFile (res locale))).1))))
        (if (buildLocale E ks locale (loadTranslationFile (res locale))).2 = []
         then tt
         else tt ++ [(locale, (buildLocale E ks locale (loadTranslationFile (res locale))).2)]) :=
  rfl

theorem syncLoop_res_notmem (E ks : List String) :
    ∀ (ls : List String) (res : String → Option (Option Store)) (tt : Batch)
      (l : String), l ∉ ls → (syncLoop E ks ls res tt).1 l = res l := by
  intro ls
  induction ls with
  | nil => intro res tt l _; rfl
  | cons a rest ih =>
    intro res tt l hl
    rw [syncLoop_step]
    have hne : l ≠ a := fun h => hl (h ▸ List.mem_cons_self a rest)
    have hnotin : l ∉ rest := fun h => hl (List.mem_cons_of_mem a h)
    rw [ih _ _ _ hnotin]
    simp [fupdate, hne]

theorem syncLoop_res_get (E ks : List String) :
    ∀ (ls : List String) (res : String → Option (Option Store)) (tt : Batch)
      (l : String), ls.Nodup → l ∈ ls →
    (syncLoop E ks ls res tt).1 l =
      some (some (saveTranslationFile
        (buildLocale E ks l (loadTranslationFile (res l))).1)) := by
  intro ls
  induction ls with
  | nil => intro res tt l _ h; simp at h
  | cons a rest ih =>
    intro res tt l hnd hl
    have hnd' := hnd
    rw [List.nodup_cons] at hnd'
    rw [syncLoop_step]
    by_cases he : l = a
    · subst he
      rw [syncLoop_res_notmem _ _ _ _ _ _ hnd'.1]
      simp [fupdate]
    · have hl' : l ∈ rest := by
        rcases List.mem_cons.1 hl with h | h
        · exact absurd h he
        · exact h
      rw [ih _ _ _ hnd'.2 hl']
      simp [fupdate, he]

theorem syncLoop_tt (E ks : List String) :
    ∀ (ls : List String) (res : String → Option (Option Store)) (tt : Batch),
    ls.Nodup →
    (syncLoop E ks ls res tt).2 = tt ++ ls.filterMap (fun l =>
      if (buildLocale E ks l (loadTranslationFile (res l))).2 = [] then none
      else some (l, (buildLocale E ks l (loadTranslationFile (res l))).2)) := by
  intro ls
  induction ls with
  | nil => intro res tt _; simp [syncLoop]
  | cons a rest ih =>
    intro res tt hnd
    rw [List.nodup_cons] at hnd
    rw [syncLoop_step, ih _ _ hnd.2]
    have hcong : rest.filterMap (fun l =>
        if (buildLocale E ks l (loadTranslationFile
             ((fupdate res a (some (some (saveTranslationFile
               (buildLocale E ks a (loadTranslationFile (res a))).1)))) l))).2 = [] then none
        else some (l, (buildLocale E ks l (loadTranslationFile
             ((fupdate res a (some (some (saveTranslationFile
               (buildLocale E ks a (loadTranslationFile (res a))).1)))) l))).2)) =
      rest.filterMap (fun l =>
        if (buildLocale E ks l (loadTranslationFile (res l))).2 = [] then none
        else some (l, (buildLocale E ks l (loadTranslationFile (res l))).2)) := by
      apply filterMap_congr_mem
      intro l hl
      have hne : l ≠ a := fun h => hnd.1 (h ▸ hl)
      simp [fupdate, hne]
    rw [hcong]
    by_cases hnil : (buildLocale E ks a (loadTranslationFile (res a))).2 = []
    · simp [hnil, List.filterMap_cons]
    · simp [hnil, List.filterMap_cons]

theorem SUPPORTED_nodup : SUPPORTED_LOCALES.Nodup := by decide

theorem canonical_mem_supported : CANONICAL_LOCALE ∈ SUPPORTED_LOCALES := by decide

theorem main_res_get (ks : List String) (s : FsState) (l : String)
    (hl : l ∈ SUPPORTED_LOCALES) :
    (main ks s).res l =
      some (some (saveTranslationFile
        (buildLocale ((loadTranslationFile (s.res CANONICAL_LOCALE)).map Prod.fst)
          ks l (loadTranslationFile (s.res l))).1)) := by
  show (syncLoop ((loadTranslationFile (s.res CANONICAL_LOCALE)).map Prod.fst)
      ks SUPPORTED_LOCALES s.res []).1 l = _
  exact syncLoop_res_get _ _ _ _ _ _ SUPPORTED_nodup hl

theorem main_batch (ks : List String) (s : FsState) :
    (main ks s).batch =
      (if (syncLoop ((loadTranslationFile (s.res CANONICAL_LOCALE)).map Prod.fst)
            ks SUPPORTED_LOCALES s.res []).2 = []
       then s.batch
       else some (some (syncLoop ((loadTranslationFile (s.res CANONICAL_LOCALE)).map Prod.fst)
            ks SUPPORTED_LOCALES s.res []).2)) :=
  rfl

theorem main_store_get (ks : List String) (s : FsState) (l k : String)
    (hl : l ∈ SUPPORTED_LOCALES) (hk : k ∈ ks) :
    ∃ st, (main ks s).res l = some (some st) ∧
      objGet st k = some (keyVal
        ((loadTranslationFile (s.res CANONICAL_LOCALE)).map Prod.fst) l
        (loadTranslationFile (s.res l)) k) := by
  refine ⟨_, main_res_get ks s l hl, ?_⟩
  apply objGet_save_of_get
  unfold buildLocale
  rw [buildLoop_get]
  simp [hk]

theorem keyVal_canonical_empty (E : List String) (cur : Store) (k : String)
    (h : keyVal E CANONICAL_LOCALE cur k = "") : k = "" := by
  unfold keyVal at h
  by_cases hE : k ∈ E
  · rw [if_pos hE, if_pos rfl] at h
    cases hov : objGet cur k with
    | none =>
      rw [hov] at h
      exact h
    | some v =>
      rw [hov] at h
      have h' : (if v = "" then k else v) = "" := h
      by_cases hv : v = ""
      · rw [if_pos hv] at h'
        exact h'
      · rw [if_neg hv] at h'
        exact absurd h' hv
  · rw [if_neg hE, if_pos rfl] at h
    exact h

end UpdateTranslations

/-! ### Properties of the merge script -/

namespace MergeTranslations

theorem mergeEntries_keys : ∀ (tr cur : Store) (n : Nat) (a : String),
    a ∈ cur.map Prod.fst → a ∈ (mergeEntries cur tr n).1.map Prod.fst := by
  intro tr
  induction tr with
  | nil => intro cur n a ha; exact ha
  | cons kv rest ih =>
    obtain ⟨k, v⟩ := kv
    intro cur n a ha
    by_cases hb : isBlank v
    · simp only [mergeEntries, if_pos hb]
      exact ih cur n a ha
    · simp only [mergeEntries, if_neg hb]
      exact ih _ _ a ((mem_keys_insert cur k v a).2 (Or.inr ha))

theorem mergeEntries_length : ∀ (tr cur : Store) (n : Nat),
    cur.length ≤ (mergeEntries cur tr n).1.length := by
  intro tr
  induction tr with
  | nil => intro cur n; exact le_refl _
  | cons kv rest ih =>
    obtain ⟨k, v⟩ := kv
    intro cur n
    by_cases hb : isBlank v
    · simp only [mergeEntries, if_pos hb]
      exact ih cur n
    · simp only [mergeEntries, if_neg hb]
      exact le_trans (length_insert cur k v) (ih _ _)

theorem mergeLoop_res : ∀ (data : Batch) (res : String → Option (Option Store))
    (total : Nat) (l : String) (m : Store), res l = some (some m) →
    ∃ st, (mergeLoop data res total).1 l = some (some st) ∧
      (∀ a ∈ m.map Prod.fst, a ∈ st.map Prod.fst) ∧ m.length ≤ st.length := by
  intro data
  induction data with
  | nil =>
    intro res total l m hm
    exact ⟨m, hm, fun a ha => ha, le_refl _⟩
  | cons p rest ih =>
    obtain ⟨l', tr'⟩ := p
    intro res total l m hm
    cases hres : res l' with
    | none =>
      have heq : mergeLoop ((l', tr') :: rest) res total = mergeLoop rest res total := by
        simp [mergeLoop, loadTranslationFile, hres]
      rw [heq]
      exact ih res total l m hm
    | some o =>
      cases o with
      | none =>
        have heq : mergeLoop ((l', tr') :: rest) res total = mergeLoop rest res total := by
          simp [mergeLoop, loadTranslationFile, hres]
        rw [heq]
        exact ih res total l m hm
      | some cur =>
        have heq : mergeLoop ((l', tr') :: rest) res total =
            mergeLoop rest
              (fupdate res l' (some (some (saveTranslationFile (mergeEntries cur tr' 0).1))))
              (total + (mergeEntries cur tr' 0).2) := by
          simp [mergeLoop, loadTranslationFile, hres]
        rw [heq]
        by_cases he : l = l'
        · subst he
          have hcur : cur = m := by
            rw [hm] at hres
            injection hres with h1
            injection h1 with h2
            exact h2.symm
          subst hcur
          have hres' : (fupdate res l
              (some (some (saveTranslationFile (mergeEntries cur tr' 0).1)))) l =
              some (some (saveTranslationFile (mergeEntries cur tr' 0).1)) := by
            simp [fupdate]
          rcases ih _ _ l _ hres' with ⟨st, hst, hsub, hlen⟩
          refine ⟨st, hst, ?_, ?_⟩
          · intro a ha
            apply hsub
            rw [mem_keys_save]
            exact mergeEntries_keys _ _ _ _ ha
          · calc cur.length ≤ (mergeEntries cur tr' 0).1.length := mergeEntries_length _ _ _
              _ = (saveTranslationFile (mergeEntries cur tr' 0).1).length := (length_save _).symm
              _ ≤ st.length := hlen
        · have hres' : (fupdate res l'
              (some (some (saveTranslationFile (mergeEntries cur tr' 0).1)))) l = res l := by
            simp [fupdate, he]
          exact ih _ _ l m (by rw [hres']; exact hm)

theorem mem_blanksOf (l k : String) : ∀ data : Batch,
    (l, k) ∈ blanksOf data ↔
      ∃ tr v, (l, tr) ∈ data ∧ (k, v) ∈ tr ∧ isBlank v = true := by
  intro data
  induction data with
  | nil => simp [blanksOf]
  | cons p rest ih =>
    obtain ⟨l', tr'⟩ := p
    constructor
    · intro hmem
      rcases List.mem_append.1 hmem with h1 | h1
      · rcases List.mem_map.1 h1 with ⟨kv, hkv, heq⟩
        rcases List.mem_filter.1 hkv with ⟨hkvtr, hbl⟩
        obtain ⟨kk, vv⟩ := kv
        injection heq with e1 e2
        subst e1
        subst e2
        exact ⟨tr', vv, List.mem_cons_self _ _, hkvtr, hbl⟩
      · rcases ih.1 h1 with ⟨tr, v, hmemd, hkv, hbl⟩
        exact ⟨tr, v, List.mem_cons_of_mem _ hmemd, hkv, hbl⟩
    · rintro ⟨tr, v, hmemd, hkv, hbl⟩
      rcases List.mem_cons.1 hmemd with heq | hmemd
      · injection heq with e1 e2
        subst e1
        subst e2
        apply List.mem_append.2
        left
        exact List.mem_map.2 ⟨(k, v), List.mem_filter.2 ⟨hkv, hbl⟩, rfl⟩
      · exact List.mem_append.2 (Or.inr (ih.2 ⟨tr, v, hmemd, hkv, hbl⟩))

end MergeTranslations

/-! ### Properties of the literal scanner -/

namespace UpdateTranslations

/-- One unfolding of `consume` when the escape flag is down. -/
theorem consume_step (q c : Char) (rest value : List Char) (nl te : Bool) :
    consume q (c :: rest) value nl te false =
      (if c = backslashChar then consume q rest value nl te true
       else if c = q then
         some (value, nl,
           if q = backtickChar ∧ c = dollarChar ∧ rest.head? = some openBraceChar
           then true else te)
       else consume q rest (value ++ [c])
         (if c = '\n' then true else nl)
         (if q = backtickChar ∧ c = dollarChar ∧ rest.head? = some openBraceChar
          then true else te) false) :=
  rfl

/-- In a backslash-free region, a consumed literal is exactly the text up to
the closing quote: the value is appended verbatim, the newline flag records
whether a newline was appended, and (for template literals) the
interpolation flag records whether `$` + brace was appended or the region
ends the value right before the closing quote. -/
theorem consume_spec (q : Char) : ∀ (cs value : List Char) (nl te : Bool)
    (v : List Char) (nl' te' : Bool),
    (∀ c ∈ cs, c ≠ backslashChar) →
    consume q cs value nl te false = some (v, nl', te') →
    ∃ mid, v = value ++ mid ∧
      nl' = (nl || mid.any (fun c => c == '\n')) ∧
      te' = (te || (q == backtickChar && hasInterpMarker mid)) ∧
      (mid.head? = cs.head? ∨ (mid = [] ∧ cs.head? = some q)) := by
  intro cs
  induction cs with
  | nil =>
    intro value nl te v nl' te' _ h
    exact absurd h (by simp [consume])
  | cons c rest ih =>
    intro value nl te v nl' te' hbs h
    have hcbs : c ≠ backslashChar := hbs c (List.mem_cons_self c rest)
    rw [consume_step, if_neg hcbs] at h
    by_cases hcq : c = q
    · rw [if_pos hcq] at h
      simp only [Option.some.injEq, Prod.mk.injEq] at h
      obtain ⟨hv, hnl, hte⟩ := h
      have hcond : ¬(q = backtickChar ∧ c = dollarChar ∧
          rest.head? = some openBraceChar) := by
        rintro ⟨h1, h2, _⟩
        subst hcq
        rw [h1] at h2
        exact absurd h2 (by decide)
      rw [if_neg hcond] at hte
      refine ⟨[], by simp [hv.symm], by simp [hnl.symm], ?_, Or.inr ⟨rfl, by simp [hcq]⟩⟩
      simp [hte.symm, hasInterpMarker]
    · rw [if_neg hcq] at h
      have hbs' : ∀ x ∈ rest, x ≠ backslashChar :=
        fun x hx => hbs x (List.mem_cons_of_mem c hx)
      rcases ih (value ++ [c]) _ _ v nl' te' hbs' h with ⟨mid', hv, hnl, hte, hhead⟩
      refine ⟨c :: mid', by simp [hv], ?_, ?_, Or.inl rfl⟩
      · rw [hnl]
        by_cases hcn : c = '\n'
        · subst hcn; simp
        · have hb : (c == '\n') = false := by simp [hcn]
          simp [hcn, hb]
      · rw [hte]
        by_cases hmk : q = backtickChar ∧ c = dollarChar ∧
            rest.head? = some openBraceChar
        · rw [if_pos hmk]
          obtain ⟨hq, hc, hrh⟩ := hmk
          cases mid' with
          | nil =>
            rcases hhead with hh | hh
            · rw [hrh] at hh
              exact absurd hh.symm (by simp)
            · rw [hq] at hh
              rw [hh.2] at hrh
              injection hrh with he
              exact absurd he (by decide)
          | cons b mid'' =>
            rcases hhead with hh | hh
            · rw [hrh] at hh
              injection hh with hb
              subst hb
              subst hc
              simp [hasInterpMarker, hq]
            · exact absurd hh.1 (by simp)
        · rw [if_neg hmk]
          by_cases hq : q = backtickChar
          · have hmarker : hasInterpMarker (c :: mid') = hasInterpMarker mid' := by
              cases mid' with
              | nil => simp [hasInterpMarker]
              | cons b mid'' =>
                have hcb : ¬(c = dollarChar ∧ b = openBraceChar) := by
                  rintro ⟨h1, h2⟩
                  rcases hhead with hh | hh
                  · apply hmk
                    refine ⟨hq, h1, ?_⟩
                    rw [← hh, h2]
                    rfl
                  · exact absurd hh.1 (by simp)
                simp [hasInterpMarker, hcb]
            rw [hmarker]
          · have hqb : (q == backtickChar) = false := by
              simp [hq]
            simp [hqb]

/-- The newline and template flags never reset once raised. -/
theorem consume_mono : ∀ (q : Char) (cs value : List Char) (nl te esc : Bool)
    (v : List Char) (nl' te' : Bool),
    consume q cs value nl te esc = some (v, nl', te') →
    (nl = true → nl' = true) ∧ (te = true → te' = true) := by
  intro q cs
  induction cs with
  | nil =>
    intro value nl te esc v nl' te' h
    exact absurd h (by simp [consume])
  | cons c rest ih =>
    intro value nl te esc v nl' te' h
    by_cases hesc : esc = true
    · subst hesc
      have h' : consume q rest (value ++ [c]) nl te false = some (v, nl', te') := h
      exact ih _ _ _ _ _ _ _ h'
    · have hesc' : esc = false := by
        cases esc
        · rfl
        · exact absurd rfl hesc
      subst hesc'
      rw [consume_step] at h
      by_cases hbc : c = backslashChar
      · rw [if_pos hbc] at h
        exact ih _ _ _ _ _ _ _ h
      · rw [if_neg hbc] at h
        by_cases hcq : c = q
        · rw [if_pos hcq] at h
          simp only [Option.some.injEq, Prod.mk.injEq] at h
          obtain ⟨_, hnl, hte⟩ := h
          constructor
          · intro hh; rw [← hnl, hh]
          · intro hh
            rw [← hte]
            by_cases hc : q = backtickChar ∧ c = dollarChar ∧
                rest.head? = some openBraceChar
            · rw [if_pos hc]
            · rw [if_neg hc]; exact hh
        · rw [if_neg hcq] at h
          have := ih _ _ _ _ _ _ _ h
          constructor
          · intro hh
            apply this.1
            rw [hh]
            by_cases hc : c = '\n' <;> simp [hc]
          · intro hh
            apply this.2
            rw [hh]
            by_cases hc : q = backtickChar ∧ c = dollarChar ∧
                rest.head? = some openBraceChar <;> simp [hc]

/-- Every key added by `processCall` beyond the incoming list is a
non-empty literal accepted by `consume` with both flags down. -/
theorem processCall_mem (cs : List Char) (keys : List (List Char))
    (k : List Char) (h : k ∈ processCall cs keys) :
    k ∈ keys ∨ (k ≠ [] ∧ ∃ qc lit, dropWs cs = qc :: lit ∧
      consume qc lit [] false false false = some (k, false, false)) := by
  unfold processCall at h
  cases hd : dropWs cs with
  | nil =>
    rw [hd] at h
    exact Or.inl h
  | cons qc lit =>
    rw [hd] at h
    simp only at h
    by_cases hq : qc = dquoteChar ∨ qc = squoteChar ∨ qc = backtickChar
    · rw [if_pos hq] at h
      cases hc : consume qc lit [] false false false with
      | none =>
        rw [hc] at h
        exact Or.inl h
      | some t =>
        obtain ⟨value, hn, hte⟩ := t
        rw [hc] at h
        simp only at h
        by_cases hrej : value = [] ∨ hn = true ∨ hte = true
        · rw [if_pos hrej] at h
          exact Or.inl h
        · rw [if_neg hrej] at h
          push_neg at hrej
          obtain ⟨hne, hn0, hte0⟩ := hrej
          have hn0' : hn = false := by
            cases hn
            · rfl
            · exact absurd rfl hn0
          have hte0' : hte = false := by
            cases hte
            · rfl
            · exact absurd rfl hte0
          by_cases hdup : value ∈ keys
          · rw [if_pos hdup] at h
            exact Or.inl h
          · rw [if_neg hdup] at h
            rcases List.mem_append.1 h with h1 | h1
            · exact Or.inl h1
            · have hkv : k = value := by simpa using h1
              subst hkv
              refine Or.inr ⟨hne, qc, lit, rfl, ?_⟩
              rw [hc, hn0', hte0']
    · rw [if_neg hq] at h
      exact Or.inl h

/-- Invariant lemma for the driver loop: any property `Q` holding for the
accumulated keys and preserved by literal acceptance (over characters
satisfying `W`) holds for every extracted key. -/
theorem extractLoop_invariant (W : Char → Prop) (Q : List Char → Prop)
    (hacc : ∀ (qc : Char) (lit k : List Char), (∀ c ∈ lit, W c) → k ≠ [] →
      consume qc lit [] false false false = some (k, false, false) → Q k) :
    ∀ (fuel : Nat) (cs : List Char) (b : Bool) (keys : List (List Char)),
    (∀ c ∈ cs, W c) → (∀ a ∈ keys, Q a) →
    ∀ k ∈ extractLoop fuel cs b keys, Q k := by
  intro fuel
  induction fuel with
  | zero =>
    intro cs b keys _ hkeys k hk
    exact hkeys k hk
  | succ fuel ih =>
    intro cs b keys hW hkeys k hk
    cases cs with
    | nil => exact hkeys k hk
    | cons c rest =>
      have htail : ∀ (l : List Char) (x : Char), x ∈ l.tail → x ∈ l := by
        intro l x hx
        cases l with
        | nil => simpa using hx
        | cons a l' => exact List.mem_cons_of_mem a hx
      by_cases hcond : b = false ∧ c = 't' ∧ rest.head? = some 'r' ∧
          (dropWs rest.tail).head? = some '('
      · rw [show extractLoop (fuel + 1) (c :: rest) b keys =
            extractLoop fuel (dropWs rest.tail).tail false
              (processCall (dropWs rest.tail).tail keys) from by
          simp only [extractLoop, if_pos hcond]] at hk
        have hsub3 : ∀ x ∈ (dropWs rest.tail).tail, x ∈ c :: rest := by
          intro x hx
          have h1 : x ∈ dropWs rest.tail := htail _ x hx
          have h2 : x ∈ rest.tail := dropWs_subset _ x h1
          exact List.mem_cons_of_mem c (htail _ x h2)
        have hW3 : ∀ x ∈ (dropWs rest.tail).tail, W x :=
          fun x hx => hW x (hsub3 x hx)
        have hkeys' : ∀ a ∈ processCall (dropWs rest.tail).tail keys, Q a := by
          intro a ha
          rcases processCall_mem _ keys a ha with h1 | ⟨hne, qc, lit, hd, hc⟩
          · exact hkeys a h1
          · refine hacc qc lit a ?_ hne hc
            intro x hx
            apply hW3
            exact dropWs_subset _ x (hd ▸ List.mem_cons_of_mem qc hx)
        exact ih _ false _ hW3 hkeys' k hk
      · rw [show extractLoop (fuel + 1) (c :: rest) b keys =
            extractLoop fuel rest (isWordChar c) keys from by
          simp only [extractLoop, if_neg hcond]] at hk
        exact ih rest (isWordChar c) keys
          (fun x hx => hW x (List.mem_cons_of_mem c hx)) hkeys k hk

end UpdateTranslations

/-! ### Claims -/

/-- Claim C1 (confirmed): for every set of extracted source keys and every
supported locale, the locale store written by a synchronization run has a
key set exactly equal to the extracted key set — no extra key remains and
no extracted key is omitted. -/
theorem C1_store_keyset (extractedKeys : List String) (s : FsState)
    (locale : String) (hl : locale ∈ UpdateTranslations.SUPPORTED_LOCALES) :
    ∃ st, (UpdateTranslations.main extractedKeys s).res locale = some (some st) ∧
      ∀ k, k ∈ st.map Prod.fst ↔ k ∈ extractedKeys := by
  refine ⟨_, UpdateTranslations.main_res_get extractedKeys s locale hl, ?_⟩
  intro k
  rw [mem_keys_save]
  unfold UpdateTranslations.buildLocale
  rw [UpdateTranslations.buildLoop_keys]
  simp

theorem C1_store_keyset_witness :
    ∃ st, (UpdateTranslations.main ["a"]
        { res := fun _ => none, batch := none }).res "de" = some (some st) ∧
      ∀ k, k ∈ st.map Prod.fst ↔ k ∈ ["a"] :=
  C1_store_keyset ["a"] { res := fun _ => none, batch := none } "de" (by decide)

/-- Claim C4 (counterexample): the claim says a key existing in the locale's
own prior store always has its prior text carried forward.  With extracted
key `k`, canonical store absent, and a prior `de` store `{k: "Hallo"}`, the
rebuilt `de` store maps `k` to `""`: the prior text is dropped, because the
branch is decided by membership in the canonical store, not the locale's
own store. -/
theorem C4_counterexample :
    objGet (UpdateTranslations.loadTranslationFile
      ((fun l : String => if l = "de" then some (some [("k", "Hallo")]) else none)
        "de")) "k" = some "Hallo" ∧
    (UpdateTranslations.main ["k"]
      { res := fun l => if l = "de" then some (some [("k", "Hallo")]) else none,
        batch := none }).res "de" = some (some [("k", "")]) ∧
    ("" : String) ≠ "Hallo" := by
  refine ⟨by decide, by decide, by decide⟩

/-- Claim C4 (amended): the carry-forward branch is decided by membership in
the prior canonical store.  (a) For a key of the canonical key set that is
in the prior canonical store, a non-canonical locale's prior text is
carried forward verbatim; (b) the canonical locale carries its prior text
when non-empty and seeds identity otherwise; (c) a key absent from the
prior canonical store is seeded with identity (canonical) or empty text
(others) even if the locale's own prior store had text for it. -/
theorem C4_carry_amended :
    (∀ (keys : List String) (s : FsState) (locale k w : String),
      locale ∈ UpdateTranslations.SUPPORTED_LOCALES →
      locale ≠ UpdateTranslations.CANONICAL_LOCALE →
      k ∈ keys →
      k ∈ (UpdateTranslations.loadTranslationFile
            (s.res UpdateTranslations.CANONICAL_LOCALE)).map Prod.fst →
      objGet (UpdateTranslations.loadTranslationFile (s.res locale)) k = some w →
      ∃ st, (UpdateTranslations.main keys s).res locale = some (some st) ∧
        objGet st k = some w) ∧
    (∀ (keys : List String) (s : FsState) (k w : String),
      k ∈ keys →
      objGet (UpdateTranslations.loadTranslationFile
        (s.res UpdateTranslations.CANONICAL_LOCALE)) k = some w →
      ∃ st, (UpdateTranslations.main keys s).res
          UpdateTranslations.CANONICAL_LOCALE = some (some st) ∧
        objGet st k = some (if w = "" then k else w)) ∧
    (∀ (keys : List String) (s : FsState) (locale k : String),
      locale ∈ UpdateTranslations.SUPPORTED_LOCALES →
      k ∈ keys →
      k ∉ (UpdateTranslations.loadTranslationFile
            (s.res UpdateTranslations.CANONICAL_LOCALE)).map Prod.fst →
      ∃ st, (UpdateTranslations.main keys s).res locale = some (some st) ∧
        objGet st k =
          some (if locale = UpdateTranslations.CANONICAL_LOCALE then k else "")) := by
  refine ⟨?_, ?_, ?_⟩
  · intro keys s locale k w hl hnc hk hE hw
    obtain ⟨st, hst, hval⟩ := UpdateTranslations.main_store_get keys s locale k hl hk
    refine ⟨st, hst, ?_⟩
    rw [hval]
    unfold UpdateTranslations.keyVal
    rw [if_pos hE, if_neg hnc, hw]
    show some (jsOrOpt (some w) "") = some w
    by_cases hw0 : w = ""
    · simp [jsOrOpt, hw0]
    · simp [jsOrOpt, hw0]
  · intro keys s k w hk hw
    have hE : k ∈ (UpdateTranslations.loadTranslationFile
        (s.res UpdateTranslations.CANONICAL_LOCALE)).map Prod.fst :=
      (mem_keys_iff_get _ _).2 ⟨w, hw⟩
    obtain ⟨st, hst, hval⟩ := UpdateTranslations.main_store_get keys s
      UpdateTranslations.CANONICAL_LOCALE k
      UpdateTranslations.canonical_mem_supported hk
    refine ⟨st, hst, ?_⟩
    rw [hval]
    unfold UpdateTranslations.keyVal
    rw [if_pos hE, if_pos rfl, hw]
    rfl
  · intro keys s locale k hl hk hE
    obtain ⟨st, hst, hval⟩ := UpdateTranslations.main_store_get keys s locale k hl hk
    refine ⟨st, hst, ?_⟩
    rw [hval]
    unfold UpdateTranslations.keyVal
    rw [if_neg hE]

theorem C4_carry_amended_witness :
    ∃ st, (UpdateTranslations.main ["k"]
      { res := fun l => if l = "en" then some (some [("k", "k")])
               else if l = "de" then some (some [("k", "Hallo")]) else none,
        batch := none }).res "de" = some (some st) ∧
      objGet st "k" = some "Hallo" :=
  C4_carry_amended.1 ["k"]
    { res := fun l => if l = "en" then some (some [("k", "k")])
             else if l = "de" then some (some [("k", "Hallo")]) else none,
      batch := none }
    "de" "k" "Hallo" (by decide) (by decide) (by decide) (by decide) (by decide)

/-- Claim C5 (counterexample): the claim says the canonical store is an
identity mapping after a run regardless of its prior values.  With
extracted key `k` and a prior canonical store `{k: "custom"}`, the rebuilt
canonical store still maps `k` to `"custom"`, not to `k`. -/
theorem C5_counterexample :
    (UpdateTranslations.main ["k"]
      { res := fun l => if l = "en" then some (some [("k", "custom")]) else none,
        batch := none }).res "en" = some (some [("k", "custom")]) ∧
    ("custom" : String) ≠ "k" := by
  refine ⟨by decide, by decide⟩

/-- Claim C5 (amended): the canonical store is an identity mapping after a
run provided every prior canonical value was empty or already equal to its
key (in particular when the prior store is absent or was produced by a
previous run); a non-empty non-identity prior value is carried forward
instead of being reset to the key. -/
theorem C5_canonical_identity_amended (keys : List String) (s : FsState)
    (hid : ∀ k v, objGet (UpdateTranslations.loadTranslationFile
      (s.res UpdateTranslations.CANONICAL_LOCALE)) k = some v → v = "" ∨ v = k) :
    ∃ st, (UpdateTranslations.main keys s).res UpdateTranslations.CANONICAL_LOCALE
        = some (some st) ∧
      ∀ k ∈ keys, objGet st k = some k := by
  refine ⟨_, UpdateTranslations.main_res_get keys s _
    UpdateTranslations.canonical_mem_supported, ?_⟩
  intro k hk
  apply objGet_save_of_get
  unfold UpdateTranslations.buildLocale
  rw [UpdateTranslations.buildLoop_get, if_pos hk]
  congr 1
  unfold UpdateTranslations.keyVal
  by_cases hE : k ∈ (UpdateTranslations.loadTranslationFile
      (s.res UpdateTranslations.CANONICAL_LOCALE)).map Prod.fst
  · rw [if_pos hE, if_pos rfl]
    cases hov : objGet (UpdateTranslations.loadTranslationFile
        (s.res UpdateTranslations.CANONICAL_LOCALE)) k with
    | none => rfl
    | some v =>
      rcases hid k v hov with hv | hv
      · subst hv
        show jsOrOpt (some "") k = k
        simp [jsOrOpt]
      · subst hv
        show jsOrOpt (some v) v = v
        by_cases hv0 : v = ""
        · simp [jsOrOpt, hv0]
        · simp [jsOrOpt, hv0]
  · rw [if_neg hE, if_pos rfl]

theorem C5_canonical_identity_amended_witness :
    ∃ st, (UpdateTranslations.main ["hello"]
        { res := fun _ => none, batch := none }).res
        UpdateTranslations.CANONICAL_LOCALE = some (some st) ∧
      ∀ k ∈ ["hello"], objGet st k = some k :=
  C5_canonical_identity_amended ["hello"] { res := fun _ => none, batch := none }
    (by
      intro k v h
      simp [UpdateTranslations.loadTranslationFile, objGet] at h)

/-- Claim C7 (counterexample): the claim says a stale pending-batch resource
does not survive a run whose computed batch is empty.  With no extracted
keys (so the computed batch is empty) and a stale `toTranslate.json`
present, the batch resource is still present and unchanged after the run:
the synchronizer never deletes it. -/
theorem C7_counterexample :
    (UpdateTranslations.main []
      { res := fun _ => none,
        batch := some (some [("de", [("x", "")])]) }).batch
      = some (some [("de", [("x", "")])]) ∧
    some (some [("de", [("x", "")])]) ≠ (none : Option (Option Batch)) := by
  refine ⟨by decide, by decide⟩

/-- Claim C7 (amended): when no key is blank in any supported locale (the
computed pending batch is empty), the run writes no batch resource and
leaves the batch resource exactly as it was — in particular a stale batch
resource present before the run is *not* removed. -/
theorem C7_empty_batch_amended (keys : List String) (s : FsState)
    (hnb : ∀ l ∈ UpdateTranslations.SUPPORTED_LOCALES, ∀ k ∈ keys,
      UpdateTranslations.keyBlank
        ((UpdateTranslations.loadTranslationFile
          (s.res UpdateTranslations.CANONICAL_LOCALE)).map Prod.fst)
        l (UpdateTranslations.loadTranslationFile (s.res l)) k = false) :
    (UpdateTranslations.main keys s).batch = s.batch := by
  rw [UpdateTranslations.main_batch]
  have htt : (UpdateTranslations.syncLoop
      ((UpdateTranslations.loadTranslationFile
        (s.res UpdateTranslations.CANONICAL_LOCALE)).map Prod.fst)
      keys UpdateTranslations.SUPPORTED_LOCALES s.res []).2 = [] := by
    rw [UpdateTranslations.syncLoop_tt _ _ _ _ _ UpdateTranslations.SUPPORTED_nodup]
    rw [List.nil_append]
    rw [List.filterMap_eq_nil]
    intro l hl
    have hlb : (UpdateTranslations.buildLocale
        ((UpdateTranslations.loadTranslationFile
          (s.res UpdateTranslations.CANONICAL_LOCALE)).map Prod.fst)
        keys l (UpdateTranslations.loadTranslationFile (s.res l))).2 = [] := by
      unfold UpdateTranslations.buildLocale
      exact UpdateTranslations.buildLoop_lb_nil _ _ _ _ _ _ (hnb l hl)
    rw [if_pos hlb]
  rw [if_pos htt]

theorem C7_empty_batch_amended_witness :
    (UpdateTranslations.main ["k"]
      { res := fun l => if l = "en" then some (some [("k", "k")])
               else some (some [("k", "x")]),
        batch := some (some [("de", [("old", "")])]) }).batch
      = some (some [("de", [("old", "")])]) :=
  C7_empty_batch_amended ["k"]
    { res := fun l => if l = "en" then some (some [("k", "k")])
             else some (some [("k", "x")]),
      batch := some (some [("de", [("old", "")])]) }
    (by decide)

/-- Claim C10 (counterexample): the claim says whitespace-only prior text in
a non-canonical locale is always carried into the rebuilt store.  With
extracted key `k`, canonical store absent, and prior `de` store
`{k: " "}`, the rebuilt `de` store maps `k` to `""` — the whitespace text
is erased, because `k` is missing from the prior canonical store and the
rebuild takes the new-key branch. -/
theorem C10_counterexample :
    objGet (UpdateTranslations.loadTranslationFile
      ((fun l : String => if l = "de" then some (some [("k", " ")]) else none)
        "de")) "k" = some " " ∧
    (UpdateTranslations.main ["k"]
      { res := fun l => if l = "de" then some (some [("k", " ")]) else none,
        batch := none }).res "de" = some (some [("k", "")]) ∧
    (" " : String) ≠ "" := by
  refine ⟨by decide, by decide, by decide⟩

/-- Claim C10 (amended): for a key of the canonical key set that is present
in the prior canonical store, a non-canonical locale's non-empty
whitespace-only prior text is carried unchanged into the rebuilt store,
while the key is still added (with empty text) to that locale's slice of
the pending batch, which is then written. -/
theorem C10_whitespace_amended (keys : List String) (s : FsState)
    (locale k w : String)
    (hl : locale ∈ UpdateTranslations.SUPPORTED_LOCALES)
    (hnc : locale ≠ UpdateTranslations.CANONICAL_LOCALE)
    (hk : k ∈ keys)
    (hE : k ∈ (UpdateTranslations.loadTranslationFile
          (s.res UpdateTranslations.CANONICAL_LOCALE)).map Prod.fst)
    (hw : objGet (UpdateTranslations.loadTranslationFile (s.res locale)) k = some w)
    (hne : w ≠ "") (hws : w.data.all isJsWs = true) :
    ∃ st tt lb,
      (UpdateTranslations.main keys s).res locale = some (some st) ∧
      objGet st k = some w ∧
      (UpdateTranslations.main keys s).batch = some (some tt) ∧
      (locale, lb) ∈ tt ∧ objGet lb k = some "" := by
  obtain ⟨st, hst, hval⟩ := UpdateTranslations.main_store_get keys s locale k hl hk
  have hvw : objGet st k = some w := by
    rw [hval]
    unfold UpdateTranslations.keyVal
    rw [if_pos hE, if_neg hnc, hw]
    show some (jsOrOpt (some w) "") = some w
    simp [jsOrOpt, hne]
  have hkb : UpdateTranslations.keyBlank
      ((UpdateTranslations.loadTranslationFile
        (s.res UpdateTranslations.CANONICAL_LOCALE)).map Prod.fst)
      locale (UpdateTranslations.loadTranslationFile (s.res locale)) k = true := by
    unfold UpdateTranslations.keyBlank
    rw [if_neg hnc, if_pos hE, hw]
    show isBlank w = true
    unfold isBlank
    rw [hws]
    simp
  have hlbget : objGet (UpdateTranslations.buildLocale
      ((UpdateTranslations.loadTranslationFile
        (s.res UpdateTranslations.CANONICAL_LOCALE)).map Prod.fst)
      keys locale (UpdateTranslations.loadTranslationFile (s.res locale))).2 k
      = some "" := by
    unfold UpdateTranslations.buildLocale
    rw [UpdateTranslations.buildLoop_lb_get, if_pos ⟨hk, hkb⟩]
  have hlbne : (UpdateTranslations.buildLocale
      ((UpdateTranslations.loadTranslationFile
        (s.res UpdateTranslations.CANONICAL_LOCALE)).map Prod.fst)
      keys locale (UpdateTranslations.loadTranslationFile (s.res locale))).2 ≠ [] := by
    intro h0
    rw [h0] at hlbget
    exact absurd hlbget (by simp [objGet])
  have htt : (UpdateTranslations.syncLoop
      ((UpdateTranslations.loadTranslationFile
        (s.res UpdateTranslations.CANONICAL_LOCALE)).map Prod.fst)
      keys UpdateTranslations.SUPPORTED_LOCALES s.res []).2 =
      UpdateTranslations.SUPPORTED_LOCALES.filterMap (fun l =>
        if (UpdateTranslations.buildLocale
            ((UpdateTranslations.loadTranslationFile
              (s.res UpdateTranslations.CANONICAL_LOCALE)).map Prod.fst)
            keys l (UpdateTranslations.loadTranslationFile (s.res l))).2 = []
        then none
        else some (l, (UpdateTranslations.buildLocale
            ((UpdateTranslations.loadTranslationFile
              (s.res UpdateTranslations.CANONICAL_LOCALE)).map Prod.fst)
            keys l (UpdateTranslations.loadTranslationFile (s.res l))).2)) := by
    rw [UpdateTranslations.syncLoop_tt _ _ _ _ _ UpdateTranslations.SUPPORTED_nodup]
    rw [List.nil_append]
  have hmem : (locale, (UpdateTranslations.buildLocale
      ((UpdateTranslations.loadTranslationFile
        (s.res UpdateTranslations.CANONICAL_LOCALE)).map Prod.fst)
      keys locale (UpdateTranslations.loadTranslationFile (s.res locale))).2) ∈
      (UpdateTranslations.syncLoop
        ((UpdateTranslations.loadTranslationFile
          (s.res UpdateTranslations.CANONICAL_LOCALE)).map Prod.fst)
        keys UpdateTranslations.SUPPORTED_LOCALES s.res []).2 := by
    rw [htt]
    apply List.mem_filterMap.2
    exact ⟨locale, hl, by rw [if_neg hlbne]⟩
  have httne : (UpdateTranslations.syncLoop
      ((UpdateTranslations.loadTranslationFile
        (s.res UpdateTranslations.CANONICAL_LOCALE)).map Prod.fst)
      keys UpdateTranslations.SUPPORTED_LOCALES s.res []).2 ≠ [] := by
    intro h0
    rw [h0] at hmem
    exact absurd hmem (by simp)
  refine ⟨st, _, _, hst, hvw, ?_, hmem, hlbget⟩
  rw [UpdateTranslations.main_batch, if_neg httne]

theorem C10_whitespace_amended_witness :
    ∃ st tt lb,
      (UpdateTranslations.main ["k"]
        { res := fun l => if l = "en" then some (some [("k", "k")])
                 else if l = "de" then some (some [("k", " ")]) else none,
          batch := none }).res "de" = some (some st) ∧
      objGet st "k" = some " " ∧
      (UpdateTranslations.main ["k"]
        { res := fun l => if l = "en" then some (some [("k", "k")])
                 else if l = "de" then some (some [("k", " ")]) else none,
          batch := none }).batch = some (some tt) ∧
      ("de", lb) ∈ tt ∧ objGet lb "k" = some "" :=
  C10_whitespace_amended ["k"]
    { res := fun l => if l = "en" then some (some [("k", "k")])
             else if l = "de" then some (some [("k", " ")]) else none,
      batch := none }
    "de" "k" " " (by decide) (by decide) (by decide) (by decide) (by decide)
    (by decide) (by decide)

namespace UpdateTranslations

/-- After a first run, every stored value re-derives itself on a second
pass: looking a key up in a store whose value is the first run's `keyVal`
and recomputing `keyVal` against the full key set gives the same value. -/
theorem keyVal_second_run (E₁ E₂ : List String) (locale : String)
    (cur1 st : Store) (k : String) (hk₂ : k ∈ E₂)
    (hget : objGet st k = some (keyVal E₁ locale cur1 k)) :
    keyVal E₂ locale st k = keyVal E₁ locale cur1 k := by
  set v₁ := keyVal E₁ locale cur1 k with hv₁
  unfold keyVal
  rw [if_pos hk₂, hget]
  by_cases hc : locale = CANONICAL_LOCALE
  · rw [if_pos hc]
    by_cases hv : v₁ = ""
    · have hk0 : k = "" := by
        apply keyVal_canonical_empty E₁ cur1 k
        rw [← hc, ← hv₁]
        exact hv
      simp [jsOrOpt, hv, hk0]
    · simp [jsOrOpt, hv]
  · rw [if_neg hc]
    by_cases hv : v₁ = ""
    · simp [jsOrOpt, hv]
    · simp [jsOrOpt, hv]

end UpdateTranslations

/-- Claim C9 (confirmed): synchronization is idempotent — for a fixed
extracted key set and any starting state with no pending batch, a second
run writes, for every supported locale, store contents identical to the
first run's output (same sorted key sequence and values, hence the same
serialized bytes). -/
theorem C9_sync_idempotent (keys : List String) (s : FsState)
    (hb : s.batch = none) (locale : String)
    (hl : locale ∈ UpdateTranslations.SUPPORTED_LOCALES) :
    (UpdateTranslations.main keys (UpdateTranslations.main keys s)).res locale =
      (UpdateTranslations.main keys s).res locale := by
  have h_en : (UpdateTranslations.main keys s).res
      UpdateTranslations.CANONICAL_LOCALE =
      some (some (saveTranslationFile
        (UpdateTranslations.buildLocale
          ((UpdateTranslations.loadTranslationFile
            (s.res UpdateTranslations.CANONICAL_LOCALE)).map Prod.fst)
          keys UpdateTranslations.CANONICAL_LOCALE
          (UpdateTranslations.loadTranslationFile
            (s.res UpdateTranslations.CANONICAL_LOCALE))).1)) :=
    UpdateTranslations.main_res_get keys s UpdateTranslations.CANONICAL_LOCALE
      UpdateTranslations.canonical_mem_supported
  have h_l1 : (UpdateTranslations.main keys s).res locale =
      some (some (saveTranslationFile
        (UpdateTranslations.buildLocale
          ((UpdateTranslations.loadTranslationFile
            (s.res UpdateTranslations.CANONICAL_LOCALE)).map Prod.fst)
          keys locale (UpdateTranslations.loadTranslationFile (s.res locale))).1)) :=
    UpdateTranslations.main_res_get keys s locale hl
  rw [UpdateTranslations.main_res_get keys (UpdateTranslations.main keys s) locale hl,
      h_en, h_l1]
  simp only [UpdateTranslations.loadTranslationFile]
  refine congrArg _ (congrArg _ (congrArg _ ?_))
  unfold UpdateTranslations.buildLocale
  apply UpdateTranslations.buildLoop_fst_congr
  intro k hk
  apply UpdateTranslations.keyVal_second_run
  · rw [mem_keys_save]
    rw [UpdateTranslations.buildLoop_keys]
    simp [hk]
  · apply objGet_save_of_get
    rw [UpdateTranslations.buildLoop_get, if_pos hk]

theorem C9_sync_idempotent_witness :
    (UpdateTranslations.main ["a"] (UpdateTranslations.main ["a"]
      { res := fun l => if l = "de" then some (some [("a", "A"), ("b", "B")])
               else none,
        batch := none })).res "de" =
      (UpdateTranslations.main ["a"]
        { res := fun l => if l = "de" then some (some [("a", "A"), ("b", "B")])
                 else none,
          batch := none }).res "de" :=
  C9_sync_idempotent ["a"]
    { res := fun l => if l = "de" then some (some [("a", "A"), ("b", "B")])
             else none,
      batch := none }
    rfl "de" (by decide)

/-- Claim C2 (confirmed): a pending batch containing at least one blank
entry (empty or whitespace-only after trimming) is rejected before any
locale store is modified — the whole file-system state is unchanged — and
the rejection report enumerates exactly the blank `locale: key` pairs of
the batch, across all locales. -/
theorem C2_merge_all_or_nothing (s : FsState) (data : Batch)
    (l₀ k₀ v₀ : String) (tr₀ : Store)
    (hb : s.batch = some (some data))
    (hmem : (l₀, tr₀) ∈ data) (hkv : (k₀, v₀) ∈ tr₀)
    (hblank : isBlank v₀ = true) :
    (MergeTranslations.main s).1 = s ∧
    (MergeTranslations.main s).2 =
      MergeTranslations.MergeReport.incomplete (MergeTranslations.blanksOf data) ∧
    (∀ l k, (l, k) ∈ MergeTranslations.blanksOf data ↔
      ∃ tr v, (l, tr) ∈ data ∧ (k, v) ∈ tr ∧ isBlank v = true) := by
  have hne : MergeTranslations.blanksOf data ≠ [] := by
    intro h0
    have hm : (l₀, k₀) ∈ MergeTranslations.blanksOf data :=
      (MergeTranslations.mem_blanksOf _ _ data).2 ⟨tr₀, v₀, hmem, hkv, hblank⟩
    rw [h0] at hm
    exact absurd hm (by simp)
  have hmain : MergeTranslations.main s =
      (s, MergeTranslations.MergeReport.incomplete
        (MergeTranslations.blanksOf data)) := by
    unfold MergeTranslations.main
    rw [hb]
    simp only
    rw [if_neg hne]
  exact ⟨by rw [hmain], by rw [hmain],
    fun l k => MergeTranslations.mem_blanksOf l k data⟩

theorem C2_merge_all_or_nothing_witness :
    (MergeTranslations.main
      { res := fun _ => some (some []),
        batch := some (some [("fr", [("a", "ok"), ("b", " ")])]) }).1 =
      { res := fun _ => some (some ([] : Store)),
        batch := some (some [("fr", [("a", "ok"), ("b", " ")])]) } ∧
    (MergeTranslations.main
      { res := fun _ => some (some []),
        batch := some (some [("fr", [("a", "ok"), ("b", " ")])]) }).2 =
      MergeTranslations.MergeReport.incomplete
        (MergeTranslations.blanksOf [("fr", [("a", "ok"), ("b", " ")])]) ∧
    (∀ l k, (l, k) ∈ MergeTranslations.blanksOf [("fr", [("a", "ok"), ("b", " ")])] ↔
      ∃ tr v, (l, tr) ∈ [("fr", [("a", "ok"), ("b", " ")])] ∧ (k, v) ∈ tr ∧
        isBlank v = true) :=
  C2_merge_all_or_nothing
    { res := fun _ => some (some []),
      batch := some (some [("fr", [("a", "ok"), ("b", " ")])]) }
    [("fr", [("a", "ok"), ("b", " ")])]
    "fr" "b" " " [("a", "ok"), ("b", " ")]
    rfl (by decide) (by decide) (by decide)

/-- Claim C8 (confirmed): merging a fully valid (blank-free) batch never
shrinks any locale store — every store that decodes before the merge ends
with a superset of its keys and at least its prior entry count — and the
batch resource ends up deleted only when the merged-entry count is
positive. -/
theorem C8_merge_destructive_safe (s : FsState) (data : Batch)
    (hb : s.batch = some (some data))
    (hvalid : MergeTranslations.blanksOf data = []) :
    (∀ l m, s.res l = some (some m) →
      ∃ st, (MergeTranslations.main s).1.res l = some (some st) ∧
        (∀ a ∈ m.map Prod.fst, a ∈ st.map Prod.fst) ∧
        m.length ≤ st.length) ∧
    ((MergeTranslations.main s).1.batch = none →
      ∃ n, (MergeTranslations.main s).2 = MergeTranslations.MergeReport.merged n ∧
        0 < n) := by
  have hmain : MergeTranslations.main s =
      (if 0 < (MergeTranslations.mergeLoop data s.res 0).2 then
        ({ res := (MergeTranslations.mergeLoop data s.res 0).1, batch := none },
          MergeTranslations.MergeReport.merged
            (MergeTranslations.mergeLoop data s.res 0).2)
      else
        ({ res := (MergeTranslations.mergeLoop data s.res 0).1, batch := s.batch },
          MergeTranslations.MergeReport.merged
            (MergeTranslations.mergeLoop data s.res 0).2)) := by
    unfold MergeTranslations.main
    rw [hb]
    simp only
    rw [if_pos hvalid]
  constructor
  · intro l m hm
    rcases MergeTranslations.mergeLoop_res data s.res 0 l m hm with
      ⟨st, hst, hsub, hlen⟩
    refine ⟨st, ?_, hsub, hlen⟩
    rw [hmain]
    by_cases hpos : 0 < (MergeTranslations.mergeLoop data s.res 0).2
    · rw [if_pos hpos]
      exact hst
    · rw [if_neg hpos]
      exact hst
  · intro hdel
    by_cases hpos : 0 < (MergeTranslations.mergeLoop data s.res 0).2
    · refine ⟨(MergeTranslations.mergeLoop data s.res 0).2, ?_, hpos⟩
      rw [hmain, if_pos hpos]
    · exfalso
      rw [hmain, if_neg hpos] at hdel
      simp only at hdel
      rw [hb] at hdel
      exact absurd hdel (by simp)

theorem C8_merge_destructive_safe_witness :
    (∃ st, (MergeTranslations.main
        { res := fun l => if l = "fr"
                 then some (some [("Hello", ""), ("Bye", "Au revoir")]) else none,
          batch := some (some [("fr", [("Hello", "Bonjour")])]) }).1.res "fr" =
        some (some st) ∧
      (∀ a ∈ ([("Hello", ""), ("Bye", "Au revoir")] : Store).map Prod.fst,
        a ∈ st.map Prod.fst) ∧
      ([("Hello", ""), ("Bye", "Au revoir")] : Store).length ≤ st.length) ∧
    (∃ n, (MergeTranslations.main
        { res := fun l => if l = "fr"
                 then some (some [("Hello", ""), ("Bye", "Au revoir")]) else none,
          batch := some (some [("fr", [("Hello", "Bonjour")])]) }).2 =
        MergeTranslations.MergeReport.merged n ∧ 0 < n) := by
  have h := C8_merge_destructive_safe
    { res := fun l => if l = "fr"
             then some (some [("Hello", ""), ("Bye", "Au revoir")]) else none,
      batch := some (some [("fr", [("Hello", "Bonjour")])]) }
    [("fr", [("Hello", "Bonjour")])] rfl (by decide)
  exact ⟨h.1 "fr" [("Hello", ""), ("Bye", "Au revoir")] (by decide),
    h.2 (by decide)⟩

/-- Claim C6 (counterexample): the claim says a locale resource that exists
but fails decoding is treated as a fatal condition distinct from absence,
aborting before any mutation.  In the synchronization script a malformed
resource loads exactly like an absent one — the empty mapping — and the
run proceeds to rebuild and write all stores (here the canonical store is
written from scratch despite every resource being malformed). -/
theorem C6_counterexample :
    UpdateTranslations.loadTranslationFile (some none) =
      UpdateTranslations.loadTranslationFile none ∧
    UpdateTranslations.loadTranslationFile (some none) = [] ∧
    (UpdateTranslations.main ["k"]
      { res := fun _ => some none, batch := none }).res "en" =
      some (some [("k", "k")]) := by
  refine ⟨rfl, rfl, by decide⟩

/-- Claim C6 (amended): the synchronization loader returns the empty mapping
for an absent resource *and* for a malformed one (a warning, then the run
proceeds); the merge loader raises an error for an absent resource *and*
for a malformed one (handled per locale by the merge loop).  Neither
loader distinguishes the two cases, and only a well-formed resource yields
its decoded mapping. -/
theorem C6_loader_amended :
    (UpdateTranslations.loadTranslationFile none = [] ∧
     UpdateTranslations.loadTranslationFile (some none) = [] ∧
     ∀ m : Store, UpdateTranslations.loadTranslationFile (some (some m)) = m) ∧
    ((∃ e, MergeTranslations.loadTranslationFile none = Except.error e) ∧
     (∃ e, MergeTranslations.loadTranslationFile (some none) = Except.error e) ∧
     ∀ m : Store, MergeTranslations.loadTranslationFile (some (some m)) =
       Except.ok m) :=
  ⟨⟨rfl, rfl, fun _ => rfl⟩, ⟨⟨_, rfl⟩, ⟨_, rfl⟩, fun _ => rfl⟩⟩

/-- Claim C3 (counterexample): the claim says no extracted key contains the
two-character sequence `$` + brace.  On the source text `tr("a${b}")` the
scanner extracts the key `a${b}`, which contains that sequence: the
template-expression check only applies to backtick-delimited literals. -/
theorem C3_counterexample :
    UpdateTranslations.extractTrCallsFromFile "tr(\"a${b}\")" = ["a${b}".data] ∧
    UpdateTranslations.hasInterpMarker "a${b}".data = true := by
  refine ⟨by decide, by decide⟩

/-- Claim C3 (amended): every extracted key is non-empty, unconditionally.
In backslash-free source text every extracted key is also free of raw
newlines, and a backslash-free backtick-delimited literal accepted with
the template flag down contains no `$` + brace sequence.  Backslash
escapes can copy a newline or an interpolation marker into a key, and
`$` + brace inside single- or double-quoted literals is kept, so neither
guarantee is unconditional. -/
theorem C3_scanner_safety_amended :
    (∀ (content : String) (k : List Char),
      k ∈ UpdateTranslations.extractTrCallsFromFile content → k ≠ []) ∧
    (∀ (content : String) (k : List Char),
      (∀ c ∈ content.data, c ≠ UpdateTranslations.backslashChar) →
      k ∈ UpdateTranslations.extractTrCallsFromFile content →
      ∀ c ∈ k, c ≠ '\n') ∧
    (∀ (lit v : List Char) (te' : Bool),
      (∀ c ∈ lit, c ≠ UpdateTranslations.backslashChar) →
      UpdateTranslations.consume UpdateTranslations.backtickChar lit [] false false
        false = some (v, false, te') →
      te' = false →
      UpdateTranslations.hasInterpMarker v = false) := by
  refine ⟨?_, ?_, ?_⟩
  · intro content k hk
    exact UpdateTranslations.extractLoop_invariant (fun _ => True) (fun a => a ≠ [])
      (fun _ _ _ _ hne _ => hne) _ content.data false []
      (fun _ _ => trivial) (fun a ha => absurd ha (List.not_mem_nil a)) k hk
  · intro content k hbs hk
    refine UpdateTranslations.extractLoop_invariant
      (fun c => c ≠ UpdateTranslations.backslashChar)
      (fun a => ∀ c ∈ a, c ≠ '\n') ?_ _ content.data false [] hbs
      (fun a ha => absurd ha (List.not_mem_nil a)) k hk
    intro qc lit a hW _ hc
    rcases UpdateTranslations.consume_spec qc lit [] false false a false false hW hc
      with ⟨mid, hv, hnl, _, _⟩
    have hmid : a = mid := by simpa using hv
    have hany : mid.any (fun c => c == '\n') = false := by
      cases hh : mid.any (fun c => c == '\n') with
      | false => rfl
      | true =>
        rw [hh] at hnl
        simp at hnl
    intro c hcmem hceq
    subst hceq
    rw [hmid] at hcmem
    rw [List.any_eq_false] at hany
    exact absurd (by simp : ('\n' == '\n') = true) (by simpa using hany _ hcmem)
  · intro lit v te' hbs hc hte
    rcases UpdateTranslations.consume_spec UpdateTranslations.backtickChar lit []
      false false v false te' hbs hc with ⟨mid, hv, _, hteq, _⟩
    rw [hte] at hteq
    have hmarker : UpdateTranslations.hasInterpMarker mid = false := by
      cases hh : UpdateTranslations.hasInterpMarker mid with
      | false => rfl
      | true =>
        rw [hh] at hteq
        simp at hteq
    have hmid : v = mid := by simpa using hv
    rw [hmid]
    exact hmarker

theorem C3_scanner_safety_amended_witness :
    ("x".data ≠ [] ∧ (∀ c ∈ "x".data, c ≠ '\n')) ∧
    UpdateTranslations.hasInterpMarker ['x'] = false := by
  refine ⟨⟨?_, ?_⟩, ?_⟩
  · exact C3_scanner_safety_amended.1 "tr(\"x\")" "x".data (by decide)
  · exact C3_scanner_safety_amended.2.1 "tr(\"x\")" "x".data (by decide) (by decide)
  · exact C3_scanner_safety_amended.2.2 ['x', UpdateTranslations.backtickChar] ['x']
      false (by decide) (by decide) rfl
